import Mathlib

/-!
Verification of the ots-tools repository (csv2wiki.py and sort-duplicates.py)
against its natural-language specification.

The Python sources are shallowly embedded: pure computations become Lean
functions, Python exceptions become `Option`/`Except` failures, and the
observable side effects we reason about (section saves to the wiki, lines
printed to stdout) are reified as explicit result values.
-/

/-- The kinds of Python exceptions relevant to sort-duplicates.py.
`indexError` models `IndexError` (out-of-range list/argv subscripts),
`parseError` models `xml.etree.ElementTree.ParseError` from `Tree.parse`,
`fileNotFound` models the `open` failure in `file_len`,
`unboundLocal` models the `UnboundLocalError` raised by `file_len` when the
loop body never runs (empty file, so `i` is never bound),
`typeError` models `TypeError` (iterating over `None`). -/
inductive PyError where
  | indexError
  | parseError
  | fileNotFound
  | unboundLocal
  | typeError
deriving DecidableEq

/-- The fixed path-prefix marker `"../../../"` used by sort-duplicates.py,
as a character list. -/
def markerL : List Char := "../../../".toList

/-- Embedding of Python `s.split('../../../')` on character lists: scan left
to right; at each position, if the marker is a prefix, close the current
chunk and continue after the marker (non-overlapping, leftmost-first),
otherwise move one character into the current chunk.  `acc` holds the
current chunk reversed. -/
def splitMarker : List Char → List Char → List (List Char)
  | [], acc => [acc.reverse]
  | c :: rest, acc =>
    if markerL.isPrefixOf (c :: rest) then
      acc.reverse :: splitMarker (rest.drop 8) []
    else
      splitMarker rest (c :: acc)
termination_by s _ => s.length
decreasing_by
  · simp only [List.length_cons, List.length_drop]
    omega
  · simp only [List.length_cons]
    exact Nat.lt_succ_self _

/-- Embedding of `filepath.split('../../../')[1]` (sort-duplicates.py lines
57, 59): element 1 of the split, `none` when the subscript would raise
`IndexError` (marker absent). -/
def normalizePath (raw : String) : Option String :=
  ((splitMarker raw.toList []).get? 1).map List.asString

/-- A `<duplication>` element of the CPD report: the two `path` attributes of
its first two children and the integer value of its `lines` attribute.
(The source reads `lines` as a string and converts with `int(...)` when
summing; we carry the integer value, which is all the claims depend on.) -/
structure CloneRecord where
  rawPath1 : String
  rawPath2 : String
  lines : Int
deriving DecidableEq

/-- An element of `reduced_filelist` in `total_duplication`:
`[dupe, filepath1, filepath2]`. -/
structure Entry where
  dupe : Int
  path1 : String
  path2 : String
deriving DecidableEq

/-- The ordered (path_1, path_2) key of an aggregated entry. -/
def keyOf (e : Entry) : String × String := (e.path1, e.path2)

/-- One iteration of the inner scan of `total_duplication` (lines 67-82):
look for an existing entry whose two paths match the record's, in order; on
the first match add the record's line count to it; otherwise append a new
entry at the end. -/
def addPair (d : Int) (p1 p2 : String) : List Entry → List Entry
  | [] => [⟨d, p1, p2⟩]
  | e :: rest =>
    if e.path1 = p1 ∧ e.path2 = p2 then
      ⟨e.dupe + d, e.path1, e.path2⟩ :: rest
    else
      e :: addPair d p1 p2 rest

/-- The loop of `total_duplication` (lines 51-84) with accumulator `acc`:
normalize both paths of each record (an absent marker raises `IndexError`,
modelled as `none`), then merge into the accumulated list via `addPair`. -/
def total_duplicationAux (acc : List Entry) : List CloneRecord → Option (List Entry)
  | [] => some acc
  | r :: rest => do
    let p1 ← normalizePath r.rawPath1
    let p2 ← normalizePath r.rawPath2
    total_duplicationAux (addPair r.lines p1 p2 acc) rest

/-- Function `total_duplication` (sort-duplicates.py lines 49-85): aggregate the clone
records into `reduced_filelist`.  `none` models the uncaught `IndexError`
raised when some path lacks the `"../../../"` marker. -/
def total_duplication (xml_root : List CloneRecord) : Option (List Entry) :=
  total_duplicationAux [] xml_root

/-- A clone record with both paths normalized, as an `Entry` (its `dupe`
field is the record's `lines` count). -/
def normRecord (r : CloneRecord) : Option Entry := do
  let p1 ← normalizePath r.rawPath1
  let p2 ← normalizePath r.rawPath2
  some ⟨r.lines, p1, p2⟩

/-- All records with paths normalized; `none` if any normalization fails. -/
def normRecords : List CloneRecord → Option (List Entry)
  | [] => some []
  | r :: rest => do
    let e ← normRecord r
    let ns ← normRecords rest
    some (e :: ns)

/-- Sum of the `dupe` fields of the entries whose ordered key is `q`. -/
def keySum (l : List Entry) (q : String × String) : Int :=
  ((l.filter fun e => decide (keyOf e = q)).map Entry.dupe).sum

/-- Number of entries whose ordered key is `q`. -/
def keyCount (l : List Entry) (q : String × String) : Nat :=
  (l.filter fun e => decide (keyOf e = q)).length

/-- The list of distinct values in first-seen order (specification-side
characterization of the aggregator's output order). -/
def firstSeen : List (String × String) → List (String × String)
  | [] => []
  | k :: ks => k :: firstSeen (ks.filter fun x => decide (x ≠ k))
termination_by l => l.length
decreasing_by
  simp only [List.length_cons]
  exact Nat.lt_succ_of_le (List.length_filter_le _ _)

/-- Modelled from the spec: path normalization discards everything up to and
including the first occurrence of the marker (`none` when the marker is
absent).  This follows the spec wording of §4.3 and claim C7; it is compared
against the source-derived `normalizePath`. -/
def dropThroughMarker : List Char → Option (List Char)
  | [] => none
  | c :: rest =>
    if markerL.isPrefixOf (c :: rest) then some (rest.drop 8)
    else dropThroughMarker rest

/-- The prefix of a character list strictly before the first occurrence of
the marker (the whole list when the marker is absent). -/
def truncAtMarker : List Char → List Char
  | [] => []
  | c :: rest =>
    if markerL.isPrefixOf (c :: rest) then []
    else c :: truncAtMarker rest

/-- An element of `filesizes_array` in `find_filesizes`:
`[dupe, filesize1, filepath1, filesize2, filepath2]`. -/
structure SizedEntry where
  dupe : Int
  size1 : Int
  path1 : String
  size2 : Int
  path2 : String
deriving DecidableEq

/-- An element of `percent_array` in `percentage_duplicated`:
`[percent1, filepath1, percent2, filepath2, dupe]`. -/
structure ScoredEntry where
  percent1 : ℚ
  path1 : String
  percent2 : ℚ
  path2 : String
  dupe : Int
deriving DecidableEq

/-- Function `file_len` (sort-duplicates.py lines 35-39) over an abstract filesystem
`fs` mapping a filename to its list of lines (or `none` when the file does
not exist, in which case `open` raises).  The loop
`for i, l in enumerate(f): pass` leaves `i = len - 1`, and `return i + 1`
raises `UnboundLocalError` when the file has no lines (the loop variable was
never bound). -/
def file_len (fs : String → Option (List String)) (fname : String) :
    Except PyError Int :=
  match fs fname with
  | none => .error .fileNotFound
  | some lines =>
    match lines.length with
    | 0 => .error .unboundLocal
    | Nat.succ k => .ok ((k : Int) + 1)

/-- The loop of `find_filesizes` (lines 99-107) with accumulator `acc`.
`argv2` is `sys.argv[2]` when present: when it is absent, the subscript
raises `IndexError`, which the `except IndexError` arm catches by printing
the usage message and returning `None` (modelled `.ok none`).  Failures of
`file_len` itself are not `IndexError` and propagate (modelled `.error`). -/
def find_filesizesAux (argv2 : Option String) (fs : String → Option (List String))
    (acc : List SizedEntry) : List Entry → Except PyError (Option (List SizedEntry))
  | [] => .ok (some acc)
  | fp :: rest =>
    match argv2 with
    | none => .ok none
    | some root => do
      let s1 ← file_len fs (root ++ fp.path1)
      let s2 ← file_len fs (root ++ fp.path2)
      find_filesizesAux argv2 fs (acc ++ [⟨fp.dupe, s1, fp.path1, s2, fp.path2⟩]) rest

/-- Function `find_filesizes` (sort-duplicates.py lines 95-109). -/
def find_filesizes (argv2 : Option String) (fs : String → Option (List String))
    (filelist : List Entry) : Except PyError (Option (List SizedEntry)) :=
  find_filesizesAux argv2 fs [] filelist

/-- Round-half-to-even to the nearest integer, the rounding rule of Python 3
`round`.  (We work in ℚ: the binary-representation error of Python floats is
not modelled; none of the claims depend on it.) -/
def roundHalfEven (q : ℚ) : ℤ :=
  if q - ⌊q⌋ < 1/2 then ⌊q⌋
  else if 1/2 < q - ⌊q⌋ then ⌊q⌋ + 1
  else if ⌊q⌋ % 2 = 0 then ⌊q⌋ else ⌊q⌋ + 1

/-- Python `round(x, 2)`: round half to even at two decimal places. -/
def round2 (q : ℚ) : ℚ := (roundHalfEven (q * 100) : ℚ) / 100

/-- Function `percentage_duplicated` (sort-duplicates.py lines 118-126): for each
sized entry, `percent_i = round(dupe / size_i, 2)`, appended in order.
(Python raises `ZeroDivisionError` on a zero denominator; entries produced
by `find_filesizes` always have sizes ≥ 1, see the C9 theorem, so that
branch is unreachable in the pipeline and ℚ division is used directly.) -/
def percentage_duplicated (size_array : List SizedEntry) : List ScoredEntry :=
  size_array.foldl
    (fun acc arr =>
      acc ++ [⟨round2 ((arr.dupe : ℚ) / (arr.size1 : ℚ)), arr.path1,
              round2 ((arr.dupe : ℚ) / (arr.size2 : ℚ)), arr.path2, arr.dupe⟩])
    []

/-- The per-entry body of `percentage_duplicated`, for stating that the loop
is a map. -/
def scoreOf (arr : SizedEntry) : ScoredEntry :=
  ⟨round2 ((arr.dupe : ℚ) / (arr.size1 : ℚ)), arr.path1,
   round2 ((arr.dupe : ℚ) / (arr.size2 : ℚ)), arr.path2, arr.dupe⟩

/-- Function `sort_files` (sort-duplicates.py lines 133-136):
`sorted(percent_array, key=lambda array: array[0])`.  Python `sorted` is a
stable ascending sort by the key; `List.mergeSort` is its extensional
equivalent. -/
def sort_files (percent_array : List ScoredEntry) : List ScoredEntry :=
  percent_array.mergeSort fun a b => decide (a.percent1 ≤ b.percent1)

/-- One line of observable stdout output of sort-duplicates.py.
`usageXml` is the message printed when `sys.argv[1]` is missing,
`usageRoot` the one printed when `sys.argv[2]` is missing, and
`pairReport` reifies the three printed lines of one pair in
`prettyprint_filelist` (the exact float formatting is not modelled). -/
inductive Output where
  | usageXml
  | usageRoot
  | pairReport (dupe : Int) (percent1 : ℚ) (path1 : String) (percent2 : ℚ) (path2 : String)
deriving DecidableEq

/-- Function `prettyprint_filelist` (sort-duplicates.py lines 144-150): one report
block per scored entry, in order. -/
def prettyprint_filelist (files : List ScoredEntry) : List Output :=
  files.map fun d => .pairReport d.dupe d.percent1 d.path1 d.percent2 d.path2

/-- The `main` function of sort-duplicates.py (lines 156-179); named `mainB`
here because Lean reserves `main` for executables.  Parameters: `argv1`/`argv2`
are `sys.argv[1]`/`sys.argv[2]` when present; `xmlParse` abstracts
`Tree.parse` (returning the root's `<duplication>` children, or an error for
a malformed file); `fs` is the filesystem seen by `file_len`.  The result is
`.ok printed` for a clean return (Python `None`) with the lines printed, and
`.error e` for an uncaught exception terminating the run.  Note which
handlers exist in the source: the `try` around `Tree.parse` catches only
`IndexError` (missing `sys.argv[1]`); a `ParseError` from a malformed file
propagates; the `IndexError` from `split('../../../')[1]` inside
`total_duplication` propagates; `find_filesizes` catches only the
`IndexError` of a missing `sys.argv[2]`; the `try` around
`percentage_duplicated` catches the `TypeError` of iterating `None`. -/
def mainB (argv1 argv2 : Option String)
    (xmlParse : String → Except Unit (List CloneRecord))
    (fs : String → Option (List String)) : Except PyError (List Output) :=
  match argv1 with
  | none => .ok [.usageXml]
  | some xp =>
    match xmlParse xp with
    | .error _ => .error .parseError
    | .ok root =>
      match total_duplication root with
      | none => .error .indexError
      | some shorter_filelist =>
        match find_filesizes argv2 fs shorter_filelist with
        | .error e => .error e
        | .ok none => .ok [.usageRoot]
        | .ok (some array_of_sizes) =>
          .ok (prettyprint_filelist (sort_files (percentage_duplicated array_of_sizes)))

/-- One `page.save(cell_text, section=cell_num, sectiontitle=...)` call made
by csv2wiki.py (the `except errors.APIError` fallback retries the same
content as a new section; either way exactly one section write with this
content happens per non-empty cell). -/
structure SaveCall where
  text : String
  sectionIdx : Nat
  sectiontitle : String
deriving DecidableEq

/-- The page title derived at `cell_num == 0` (csv2wiki.py line 46):
`'Proposal_' + str(row_num) + ': ' + cell` for the first cell; `none` when
the row is empty (the loop body never runs). -/
def pageTitle (row_num : Nat) (row : List String) : Option String :=
  row.head?.map fun c => "Proposal_" ++ toString row_num ++ ": " ++ c

/-- The cell loop of csv2wiki.py (lines 43-76) from cell number `cell_num`
onward, over the remaining cells `cells` of a row of total length `rowLen`,
with the current category list `cats`.  For each non-empty cell: the last
cell of the row is wrapped as `[[Category:<cell>]]` and recorded in the
category list if new, every other cell is written verbatim; the section
heading is `header_array[cell_num]`, whose subscript raises `IndexError`
(modelled `none`) when the row is wider than the header.  Returns the save
calls made and the final category list. -/
def processCells (header_array : List String) (rowLen : Nat) :
    Nat → List String → List String → Option (List SaveCall × List String)
  | _, [], cats => some ([], cats)
  | cell_num, cell :: rest, cats =>
    if cell ≠ "" then
      let isLast := cell_num = rowLen - 1
      let cell_text := if isLast then "[[Category:" ++ cell ++ "]]" else cell
      let cats2 := if isLast then (if cell ∈ cats then cats else cats ++ [cell]) else cats
      match header_array.get? cell_num with
      | none => none
      | some heading =>
        match processCells header_array rowLen (cell_num + 1) rest cats2 with
        | none => none
        | some (calls, catsOut) => some (⟨cell_text, cell_num, heading⟩ :: calls, catsOut)
    else
      processCells header_array rowLen (cell_num + 1) rest cats

/-- One aggregation step over an already-normalized record: merge it into the
accumulated list via `addPair`. -/
def reduceStep (acc : List Entry) (e : Entry) : List Entry :=
  addPair e.dupe e.path1 e.path2 acc

/-! ### Helper lemmas: the marker split -/

/-- Auxiliary: element 1 of a list is the head of its tail. -/
theorem get1_eq_tail_head {α : Type} (l : List α) : l.get? 1 = l.tail.head? := by
  cases l with
  | nil => rfl
  | cons x xs => cases xs <;> rfl

/-- The first chunk produced by `splitMarker t acc` is `acc.reverse` followed
by the prefix of `t` before its first marker occurrence. -/
theorem splitMarker_head (t : List Char) :
    ∀ acc, (splitMarker t acc).head? = some (acc.reverse ++ truncAtMarker t) := by
  induction t with
  | nil => intro acc; simp [splitMarker, truncAtMarker]
  | cons c rest ih =>
    intro acc
    cases h : markerL.isPrefixOf (c :: rest) with
    | true => simp [splitMarker, truncAtMarker, h]
    | false => simp [splitMarker, truncAtMarker, h, ih]

/-- The chunks after the first do not depend on the accumulator. -/
theorem splitMarker_tail (t : List Char) :
    ∀ acc, (splitMarker t acc).tail = (splitMarker t []).tail := by
  induction t with
  | nil => intro acc; simp [splitMarker]
  | cons c rest ih =>
    intro acc
    cases h : markerL.isPrefixOf (c :: rest) with
    | true => simp [splitMarker, h]
    | false =>
      simp only [splitMarker, h, Bool.false_eq_true, if_false]
      rw [ih (c :: acc), ih [c]]

/-- Characterization of `split('../../../')[1]`: it is the remainder after
the first marker occurrence, truncated before the next occurrence. -/
theorem splitMarker_get1 (s : List Char) :
    (splitMarker s []).get? 1 = (dropThroughMarker s).map truncAtMarker := by
  induction s with
  | nil => simp [splitMarker, dropThroughMarker]
  | cons c rest ih =>
    cases h : markerL.isPrefixOf (c :: rest) with
    | true =>
      simp only [splitMarker, dropThroughMarker, h, if_true, List.reverse_nil]
      rw [show (([] : List Char) :: splitMarker (rest.drop 8) []).get? 1
            = (splitMarker (rest.drop 8) []).get? 0 from rfl]
      rw [show ∀ l : List (List Char), l.get? 0 = l.head? from fun l => by cases l <;> rfl]
      rw [splitMarker_head]
      simp
    | false =>
      simp only [splitMarker, dropThroughMarker, h, Bool.false_eq_true, if_false]
      rw [get1_eq_tail_head, splitMarker_tail, ← get1_eq_tail_head, ih]

/-- If `dropThroughMarker` finds the marker, the marker really occurs in the
list. -/
theorem dropThroughMarker_occurs {s t : List Char}
    (h : dropThroughMarker s = some t) : markerL <:+: s := by
  induction s with
  | nil => simp [dropThroughMarker] at h
  | cons c rest ih =>
    cases hp : markerL.isPrefixOf (c :: rest) with
    | true =>
      rcases List.isPrefixOf_iff_prefix.mp hp with ⟨u, hu⟩
      exact ⟨[], u, by simpa using hu⟩
    | false =>
      simp only [dropThroughMarker, hp, Bool.false_eq_true, if_false] at h
      rcases ih h with ⟨u, v, huv⟩
      exact ⟨c :: u, v, by simp [← huv]⟩

/-! ### Helper lemmas: aggregation -/

/-- Unfolding lemma for `keySum` on a cons. -/
theorem keySum_cons (e : Entry) (l : List Entry) (q : String × String) :
    keySum (e :: l) q = (if keyOf e = q then e.dupe else 0) + keySum l q := by
  by_cases h : keyOf e = q <;> simp [keySum, List.filter_cons, h]

/-- Lemma: `addPair` adds `d` to the total of key `(p1, p2)` and leaves every other
key's total unchanged. -/
theorem addPair_keySum (d : Int) (p1 p2 : String) (q : String × String) :
    ∀ acc, keySum (addPair d p1 p2 acc) q
      = keySum acc q + (if (p1, p2) = q then d else 0) := by
  intro acc
  induction acc with
  | nil =>
    by_cases hq : (p1, p2) = q <;>
      simp [addPair, keySum_cons, keySum, keyOf, hq]
  | cons e rest ih =>
    by_cases hm : e.path1 = p1 ∧ e.path2 = p2
    · rw [show addPair d p1 p2 (e :: rest)
            = ⟨e.dupe + d, e.path1, e.path2⟩ :: rest from by simp [addPair, hm]]
      rw [keySum_cons, keySum_cons]
      by_cases hq : (p1, p2) = q
      · simp only [keyOf, hm.1, hm.2, hq, if_pos trivial]
        ring
      · simp only [keyOf, hm.1, hm.2]
        rw [if_neg hq, if_neg hq, if_neg hq]
        ring
    · rw [show addPair d p1 p2 (e :: rest)
            = e :: addPair d p1 p2 rest from by simp [addPair, hm]]
      rw [keySum_cons, keySum_cons, ih]
      ring

/-- Lemma: `addPair` leaves the key sequence unchanged when the key is already
present, and appends the new key at the end otherwise. -/
theorem addPair_keys (d : Int) (p1 p2 : String) :
    ∀ acc, (addPair d p1 p2 acc).map keyOf
      = if (p1, p2) ∈ acc.map keyOf then acc.map keyOf
        else acc.map keyOf ++ [(p1, p2)] := by
  intro acc
  induction acc with
  | nil => simp [addPair, keyOf]
  | cons e rest ih =>
    by_cases hm : e.path1 = p1 ∧ e.path2 = p2
    · rw [show addPair d p1 p2 (e :: rest)
            = ⟨e.dupe + d, e.path1, e.path2⟩ :: rest from by simp [addPair, hm]]
      have hk : keyOf e = (p1, p2) := by simp [keyOf, hm.1, hm.2]
      have hmem : (p1, p2) ∈ (e :: rest).map keyOf := by
        rw [List.map_cons, hk]
        exact List.mem_cons_self _ _
      rw [if_pos hmem, List.map_cons, List.map_cons]
      rfl
    · rw [show addPair d p1 p2 (e :: rest)
            = e :: addPair d p1 p2 rest from by simp [addPair, hm]]
      have hk : (p1, p2) ≠ keyOf e := by
        simp only [keyOf, ne_eq, Prod.mk.injEq, not_and]
        intro h1 h2
        exact hm ⟨h1.symm, h2.symm⟩
      by_cases hq : (p1, p2) ∈ rest.map keyOf <;>
        simp [List.map_cons, List.mem_cons, hk, hq, ih]

/-- Membership in `firstSeen` is membership in the original list. -/
theorem mem_firstSeen (x : String × String) :
    ∀ ks, x ∈ firstSeen ks ↔ x ∈ ks := by
  intro ks
  induction ks using firstSeen.induct with
  | case1 => simp [firstSeen]
  | case2 k ks ih =>
    rw [firstSeen]
    by_cases hx : x = k
    · simp [hx]
    · simp only [List.mem_cons, hx, false_or, ih, List.mem_filter]
      simp [hx]

/-- Lists produced by `firstSeen` contain no duplicates. -/
theorem nodup_firstSeen : ∀ ks, (firstSeen ks).Nodup := by
  intro ks
  induction ks using firstSeen.induct with
  | case1 => simp [firstSeen]
  | case2 k ks ih =>
    rw [firstSeen]
    refine List.nodup_cons.mpr ⟨?_, ih⟩
    intro hmem
    have := (mem_firstSeen k _).mp hmem
    simp [List.mem_filter] at this

/-- Appending one element extends `firstSeen` exactly when the element is
new. -/
theorem firstSeen_append (k0 : String × String) :
    ∀ ks, firstSeen (ks ++ [k0])
      = if k0 ∈ ks then firstSeen ks else firstSeen ks ++ [k0] := by
  intro ks
  induction ks using firstSeen.induct with
  | case1 => simp [firstSeen]
  | case2 k ks ih =>
    by_cases hk : k0 = k
    · rw [show (k :: ks) ++ [k0] = k :: (ks ++ [k0]) from rfl, firstSeen, firstSeen]
      rw [List.filter_append]
      simp [hk, List.filter]
    · rw [show (k :: ks) ++ [k0] = k :: (ks ++ [k0]) from rfl, firstSeen, firstSeen]
      rw [List.filter_append]
      rw [show List.filter (fun x => decide (x ≠ k)) [k0] = [k0] from by simp [hk]]
      rw [ih]
      have hmem : k0 ∈ List.filter (fun x => decide (x ≠ k)) ks ↔ k0 ∈ ks := by
        simp [List.mem_filter, hk]
      by_cases hq : k0 ∈ ks
      · simp [hmem, hq, hk]
      · simp [hmem, hq, hk]

/-- Computing `keySum` over a one-element extension. -/
theorem keySum_append (l : List Entry) (e : Entry) (q : String × String) :
    keySum (l ++ [e]) q = keySum l q + (if keyOf e = q then e.dupe else 0) := by
  by_cases h : keyOf e = q <;>
    simp [keySum, List.filter_append, List.filter, h]

/-- In a duplicate-free list, filtering for one value yields length 1 or 0
according to membership. -/
theorem nodup_filter_length {α : Type} [DecidableEq α] (q : α) :
    ∀ ks : List α, ks.Nodup →
      (ks.filter fun k => decide (k = q)).length = if q ∈ ks then 1 else 0 := by
  intro ks
  induction ks with
  | nil => simp
  | cons k ks ih =>
    intro hnd
    rcases List.nodup_cons.mp hnd with ⟨hk, hnd2⟩
    by_cases h : k = q
    · subst h
      have hz : (ks.filter fun k2 => decide (k2 = k)).length = 0 := by
        rw [List.length_eq_zero]
        refine List.filter_eq_nil_iff.mpr ?_
        intro a ha
        simp only [decide_eq_true_eq]
        intro hak
        exact hk (hak ▸ ha)
      simp [List.filter_cons, hz]
    · by_cases hq : q ∈ ks
      · have h1 : q ∈ k :: ks := List.mem_cons_of_mem _ hq
        simp [List.filter_cons, h, hq, h1, ih hnd2]
      · have h1 : q ∉ k :: ks := by
          simp only [List.mem_cons, not_or]
          exact ⟨fun hc => h hc.symm, hq⟩
        simp [List.filter_cons, h, hq, h1, ih hnd2]

/-- The keys of the aggregated list are the distinct input keys in
first-seen order. -/
theorem reduced_keys :
    ∀ ns : List Entry, (ns.foldl reduceStep []).map keyOf = firstSeen (ns.map keyOf) := by
  intro ns
  induction ns using List.reverseRecOn with
  | nil => simp [firstSeen]
  | append_singleton ns e ih =>
    rw [List.foldl_append, List.foldl_cons, List.foldl_nil, List.map_append, List.map_singleton]
    rw [firstSeen_append]
    rw [show reduceStep (ns.foldl reduceStep []) e
          = addPair e.dupe e.path1 e.path2 (ns.foldl reduceStep []) from rfl]
    rw [addPair_keys, ih]
    have hcond : ((e.path1, e.path2) ∈ firstSeen (ns.map keyOf)) ↔ (keyOf e ∈ ns.map keyOf) := by
      rw [mem_firstSeen]
      rfl
    by_cases hq : keyOf e ∈ ns.map keyOf
    · rw [if_pos (hcond.mpr hq), if_pos hq]
    · rw [if_neg (fun hc => hq (hcond.mp hc)), if_neg hq]
      rfl

/-- Aggregation preserves per-key totals. -/
theorem reduced_keySum (q : String × String) :
    ∀ ns : List Entry, keySum (ns.foldl reduceStep []) q = keySum ns q := by
  intro ns
  induction ns using List.reverseRecOn with
  | nil => rfl
  | append_singleton ns e ih =>
    rw [List.foldl_append, List.foldl_cons, List.foldl_nil, keySum_append]
    rw [show reduceStep (ns.foldl reduceStep []) e
          = addPair e.dupe e.path1 e.path2 (ns.foldl reduceStep []) from rfl]
    rw [addPair_keySum, ih]
    rfl

/-- Lemma: `total_duplicationAux` is the fold of `reduceStep` over the normalized
records. -/
theorem total_duplicationAux_eq_norm :
    ∀ (l : List CloneRecord) (acc : List Entry),
      total_duplicationAux acc l = (normRecords l).map fun ns => ns.foldl reduceStep acc := by
  intro l
  induction l with
  | nil => intro acc; simp [total_duplicationAux, normRecords]
  | cons r rest ih =>
    intro acc
    rw [show normRecords (r :: rest)
          = (normRecord r).bind fun e => (normRecords rest).bind fun ns => some (e :: ns) from
        rfl]
    cases h1 : normalizePath r.rawPath1 with
    | none => simp [total_duplicationAux, normRecord, h1]
    | some p1 =>
      cases h2 : normalizePath r.rawPath2 with
      | none => simp [total_duplicationAux, normRecord, h1, h2]
      | some p2 =>
        rw [show total_duplicationAux acc (r :: rest)
              = total_duplicationAux (addPair r.lines p1 p2 acc) rest from by
            simp [total_duplicationAux, h1, h2]]
        rw [show normRecord r = some ⟨r.lines, p1, p2⟩ from by simp [normRecord, h1, h2]]
        rw [ih]
        cases normRecords rest with
        | none => rfl
        | some ns => simp [reduceStep]

/-- Computing `keyCount` through `map keyOf`. -/
theorem keyCount_map (l : List Entry) (q : String × String) :
    keyCount l q = ((l.map keyOf).filter fun k => decide (k = q)).length := by
  induction l with
  | nil => rfl
  | cons e rest ih =>
    simp only [keyCount] at ih ⊢
    by_cases h : keyOf e = q <;> simp [List.filter_cons, h, ih]

/-! ### Pipeline B: claims C1 and C6 -/

/-- Claim C1: for every sequence of clone records (all of whose paths
normalize), `total_duplication` yields exactly one aggregated entry per
distinct ordered (path_1, path_2) key occurring among the normalized
records — one when the key occurs, none otherwise — and that entry's total
equals the sum of `lines` over exactly the records carrying that ordered
key.  Since the key is the ordered pair, records naming the same two files
in swapped order contribute to a different key. -/
theorem total_duplication_pair_totals
    (l : List CloneRecord) (out ns : List Entry)
    (hout : total_duplication l = some out) (hns : normRecords l = some ns)
    (p1 p2 : String) :
    keyCount out (p1, p2) = (if (p1, p2) ∈ ns.map keyOf then 1 else 0)
    ∧ keySum out (p1, p2) = keySum ns (p1, p2) := by
  rw [total_duplication, total_duplicationAux_eq_norm, hns, Option.map_some'] at hout
  obtain rfl := Option.some.inj hout
  constructor
  · rw [keyCount_map, reduced_keys]
    rw [nodup_filter_length _ _ (nodup_firstSeen _)]
    by_cases hq : (p1, p2) ∈ ns.map keyOf
    · rw [if_pos ((mem_firstSeen _ _).mpr hq), if_pos hq]
    · rw [if_neg (fun hc => hq ((mem_firstSeen _ _).mp hc)), if_neg hq]
  · exact reduced_keySum _ ns

/-- Witness for C1: records (A,B,50) and (A,B,30) aggregate to a single
entry (A,B,80). -/
theorem total_duplication_pair_totals_witness :
    total_duplication
        [⟨"x../../../A", "y../../../B", 50⟩, ⟨"z../../../A", "w../../../B", 30⟩]
      = some [⟨80, "A", "B"⟩]
    ∧ normRecords
        [⟨"x../../../A", "y../../../B", 50⟩, ⟨"z../../../A", "w../../../B", 30⟩]
      = some [⟨50, "A", "B"⟩, ⟨30, "A", "B"⟩]
    ∧ (keyCount [⟨80, "A", "B"⟩] ("A", "B")
        = (if ("A", "B") ∈ [Entry.mk 50 "A" "B", Entry.mk 30 "A" "B"].map keyOf then 1 else 0)
      ∧ keySum [⟨80, "A", "B"⟩] ("A", "B")
        = keySum [⟨50, "A", "B"⟩, ⟨30, "A", "B"⟩] ("A", "B")) := by
  have h1 : total_duplication
      [⟨"x../../../A", "y../../../B", 50⟩, ⟨"z../../../A", "w../../../B", 30⟩]
      = some [⟨80, "A", "B"⟩] := by
    simp [total_duplication, total_duplicationAux, normalizePath, addPair,
      splitMarker, markerL, List.isPrefixOf, String.toList, List.asString]
  have h2 : normRecords
      [⟨"x../../../A", "y../../../B", 50⟩, ⟨"z../../../A", "w../../../B", 30⟩]
      = some [⟨50, "A", "B"⟩, ⟨30, "A", "B"⟩] := by
    simp [normRecords, normRecord, normalizePath,
      splitMarker, markerL, List.isPrefixOf, String.toList, List.asString]
  exact ⟨h1, h2, total_duplication_pair_totals _ _ _ h1 h2 "A" "B"⟩

/-- Claim C6: aggregation is order-preserving: the key sequence of
`total_duplication`'s output is exactly the sequence of distinct normalized
ordered pairs in first-seen order, so the Nth aggregated entry corresponds
to the first record introducing the Nth distinct ordered pair. -/
theorem total_duplication_first_seen_order
    (l : List CloneRecord) (out ns : List Entry)
    (hout : total_duplication l = some out) (hns : normRecords l = some ns) :
    out.map keyOf = firstSeen (ns.map keyOf) := by
  rw [total_duplication, total_duplicationAux_eq_norm, hns, Option.map_some'] at hout
  obtain rfl := Option.some.inj hout
  exact reduced_keys ns

/-- Witness for C6: records keyed (A,B), (B,A), (A,B) aggregate to keys
[(A,B), (B,A)] in first-seen order. -/
theorem total_duplication_first_seen_order_witness :
    total_duplication
        [⟨"x../../../A", "x../../../B", 5⟩, ⟨"x../../../B", "x../../../A", 7⟩,
         ⟨"x../../../A", "x../../../B", 2⟩]
      = some [⟨7, "A", "B"⟩, ⟨7, "B", "A"⟩]
    ∧ normRecords
        [⟨"x../../../A", "x../../../B", 5⟩, ⟨"x../../../B", "x../../../A", 7⟩,
         ⟨"x../../../A", "x../../../B", 2⟩]
      = some [⟨5, "A", "B"⟩, ⟨7, "B", "A"⟩, ⟨2, "A", "B"⟩]
    ∧ [Entry.mk 7 "A" "B", Entry.mk 7 "B" "A"].map keyOf
      = firstSeen ([Entry.mk 5 "A" "B", Entry.mk 7 "B" "A", Entry.mk 2 "A" "B"].map keyOf) := by
  have h1 : total_duplication
      [⟨"x../../../A", "x../../../B", 5⟩, ⟨"x../../../B", "x../../../A", 7⟩,
       ⟨"x../../../A", "x../../../B", 2⟩]
      = some [⟨7, "A", "B"⟩, ⟨7, "B", "A"⟩] := by
    simp [total_duplication, total_duplicationAux, normalizePath, addPair,
      splitMarker, markerL, List.isPrefixOf, String.toList, List.asString]
  have h2 : normRecords
      [⟨"x../../../A", "x../../../B", 5⟩, ⟨"x../../../B", "x../../../A", 7⟩,
       ⟨"x../../../A", "x../../../B", 2⟩]
      = some [⟨5, "A", "B"⟩, ⟨7, "B", "A"⟩, ⟨2, "A", "B"⟩] := by
    simp [normRecords, normRecord, normalizePath,
      splitMarker, markerL, List.isPrefixOf, String.toList, List.asString]
  exact ⟨h1, h2, total_duplication_first_seen_order _ _ _ h1 h2⟩

/-! ### Pipeline B: claims C7 and C2 (path normalization) -/

/-- Counterexample to claim C7 as stated: on a path in which the marker
occurs twice, `split('../../../')[1]` is the segment strictly between the
first and second occurrences ("b"), not the raw path with everything up to
and including the first occurrence discarded ("b../../../c"). -/
theorem normalizePath_two_markers_cex :
    normalizePath "a../../../b../../../c" = some "b"
    ∧ (some "b" : Option String) ≠ some "b../../../c" := by
  constructor
  · simp [normalizePath, splitMarker, markerL, List.isPrefixOf, String.toList,
      List.asString]
  · decide

/-- Claim C7 (amended): for every raw path containing the marker,
normalization discards everything up to and including the first occurrence
of the marker and then truncates the remainder strictly before its next
occurrence (so when the marker occurs exactly once, everything after it is
returned); for marker-free paths both sides are `none`. -/
theorem normalizePath_eq_drop_trunc :
    ∀ raw : String, normalizePath raw
      = ((dropThroughMarker raw.toList).map truncAtMarker).map List.asString := by
  intro raw
  rw [normalizePath, splitMarker_get1]

/-- A marker-free path makes `normalizePath` fail. -/
theorem normalizePath_eq_none_of_no_marker (raw : String)
    (h : ¬ markerL <:+: raw.toList) : normalizePath raw = none := by
  rw [normalizePath, splitMarker_get1]
  cases hd : dropThroughMarker raw.toList with
  | none => rfl
  | some t => exact absurd (dropThroughMarker_occurs hd) h

/-- If some record's path fails to normalize, the whole aggregation loop
raises (modelled `none`), whatever the accumulator. -/
theorem total_duplicationAux_none (r : CloneRecord)
    (hr : normalizePath r.rawPath1 = none ∨ normalizePath r.rawPath2 = none) :
    ∀ (root : List CloneRecord) (acc : List Entry), r ∈ root →
      total_duplicationAux acc root = none := by
  intro root
  induction root with
  | nil => intro acc h; cases h
  | cons s rest ih =>
    intro acc hmem
    rcases List.mem_cons.mp hmem with heq | htail
    · subst heq
      cases hr with
      | inl h1 => simp [total_duplicationAux, h1]
      | inr h2 =>
        cases hp1 : normalizePath r.rawPath1 with
        | none => simp [total_duplicationAux, hp1]
        | some p1 => simp [total_duplicationAux, hp1, h2]
    · cases hp1 : normalizePath s.rawPath1 with
      | none => simp [total_duplicationAux, hp1]
      | some p1 =>
        cases hp2 : normalizePath s.rawPath2 with
        | none => simp [total_duplicationAux, hp1, hp2]
        | some p2 =>
          rw [show total_duplicationAux acc (s :: rest)
                = total_duplicationAux (addPair s.lines p1 p2 acc) rest from by
              simp [total_duplicationAux, hp1, hp2]]
          exact ih _ htail

/-- Counterexample to claim C2 as stated: a run whose report contains a path
without the marker terminates with an uncaught `IndexError` (a crash), not
with a caught error and a clean exit. -/
theorem missing_marker_crash_cex :
    normalizePath "src/Foo.java" = none
    ∧ mainB (some "report.xml") (some "/root/")
        (fun _ => .ok [⟨"src/Foo.java", "x../../../B.java", 12⟩])
        (fun _ => some ["line"])
      = .error .indexError := by
  constructor
  · simp [normalizePath, splitMarker, markerL, List.isPrefixOf, String.toList]
  · simp [mainB, total_duplication, total_duplicationAux, normalizePath,
      splitMarker, markerL, List.isPrefixOf, String.toList]

/-- Claim C2 (amended): a path in which the marker does not occur makes
normalization fail — but with an `IndexError` (from `split(...)[1]`), not a
`ParseError`, and the exception is not caught at the top level: `main`'s
only handler around parsing catches the `IndexError` of a missing XML
argument, so the run terminates with the uncaught exception instead of a
clean reported exit. -/
theorem missing_marker_is_uncaught_indexError :
    (∀ raw : String, ¬ markerL <:+: raw.toList → normalizePath raw = none)
    ∧ ∀ (xp : String) (argv2 : Option String)
        (xmlParse : String → Except Unit (List CloneRecord))
        (fs : String → Option (List String)) (root : List CloneRecord)
        (r : CloneRecord),
        xmlParse xp = .ok root → r ∈ root →
        (¬ markerL <:+: r.rawPath1.toList ∨ ¬ markerL <:+: r.rawPath2.toList) →
        mainB (some xp) argv2 xmlParse fs = .error .indexError := by
  constructor
  · exact normalizePath_eq_none_of_no_marker
  · intro xp argv2 xmlParse fs root r hparse hmem hno
    have hr : normalizePath r.rawPath1 = none ∨ normalizePath r.rawPath2 = none := by
      cases hno with
      | inl h => exact Or.inl (normalizePath_eq_none_of_no_marker _ h)
      | inr h => exact Or.inr (normalizePath_eq_none_of_no_marker _ h)
    have htd : total_duplication root = none :=
      total_duplicationAux_none r hr root [] hmem
    simp [mainB, hparse, htd]

/-- Witness for the amended C2. -/
theorem missing_marker_is_uncaught_indexError_witness :
    normalizePath "abc" = none
    ∧ mainB (some "r.xml") (some "/")
        (fun _ => .ok [⟨"abc", "x../../../y", 5⟩]) (fun _ => none)
      = .error .indexError := by
  have hno : ¬ markerL <:+: "abc".toList := by decide
  refine ⟨missing_marker_is_uncaught_indexError.1 "abc" hno, ?_⟩
  exact missing_marker_is_uncaught_indexError.2 "r.xml" (some "/") _ _
    [⟨"abc", "x../../../y", 5⟩] ⟨"abc", "x../../../y", 5⟩ rfl
    (List.mem_singleton.mpr rfl) (Or.inl hno)

/-! ### Pipeline B: claims C10 and C8 (argument handling) -/

/-- Claim C10: when the report has zero pair children, CLI B prints nothing
and returns cleanly even with the root argument missing — `find_filesizes`
returns the empty list without consulting it — and the missing-root usage
message is printed exactly when the aggregated list is non-empty. -/
theorem empty_report_prints_nothing :
    (∀ (xp : String) (argv2 : Option String)
        (xmlParse : String → Except Unit (List CloneRecord))
        (fs : String → Option (List String)),
        xmlParse xp = .ok ([] : List CloneRecord) →
        mainB (some xp) argv2 xmlParse fs = .ok [])
    ∧ ∀ (xp : String) (xmlParse : String → Except Unit (List CloneRecord))
        (fs : String → Option (List String)) (root : List CloneRecord)
        (e : Entry) (es : List Entry),
        xmlParse xp = .ok root → total_duplication root = some (e :: es) →
        mainB (some xp) none xmlParse fs = .ok [.usageRoot] := by
  constructor
  · intro xp argv2 xmlParse fs hparse
    simp [mainB, hparse, total_duplication, total_duplicationAux,
      find_filesizes, find_filesizesAux, percentage_duplicated, sort_files,
      prettyprint_filelist]
  · intro xp xmlParse fs root e es hparse htd
    simp [mainB, hparse, htd, find_filesizes, find_filesizesAux]

/-- Witness for C10. -/
theorem empty_report_prints_nothing_witness :
    mainB (some "rep.xml") none (fun _ => .ok []) (fun _ => none) = .ok []
    ∧ mainB (some "rep.xml") none
        (fun _ => .ok [⟨"x../../../A", "x../../../B", 3⟩]) (fun _ => none)
      = .ok [.usageRoot] := by
  have htd : total_duplication [(⟨"x../../../A", "x../../../B", 3⟩ : CloneRecord)]
      = some [⟨3, "A", "B"⟩] := by
    simp [total_duplication, total_duplicationAux, normalizePath, addPair,
      splitMarker, markerL, List.isPrefixOf, String.toList, List.asString]
  exact ⟨empty_report_prints_nothing.1 "rep.xml" none _ _ rfl,
    empty_report_prints_nothing.2 "rep.xml" _ _ _ ⟨3, "A", "B"⟩ [] rfl htd⟩

/-- Counterexample to claim C8 as stated: with the XML path present, the
root path missing, and a report with zero pairs, CLI B prints no usage
message at all (it prints nothing and returns cleanly). -/
theorem missing_root_no_usage_cex :
    mainB (some "dups.xml") none (fun _ => .ok []) (fun _ => none)
      = .ok ([] : List Output)
    ∧ ((.ok [] : Except PyError (List Output)) ≠ .ok [.usageRoot]) := by
  constructor
  · simp [mainB, total_duplication, total_duplicationAux,
      find_filesizes, find_filesizesAux, percentage_duplicated, sort_files,
      prettyprint_filelist]
  · intro h
    simpa using Except.ok.inj h

/-- Claim C8 (amended): with the XML report path missing, CLI B prints the
XML usage message and returns `None` cleanly; with the XML path present and
the root path missing it returns cleanly as well, printing the root usage
message when aggregation yields at least one pair and printing nothing when
it yields zero pairs. -/
theorem usage_messages_on_missing_args :
    (∀ (argv2 : Option String)
        (xmlParse : String → Except Unit (List CloneRecord))
        (fs : String → Option (List String)),
        mainB none argv2 xmlParse fs = .ok [.usageXml])
    ∧ (∀ (xp : String) (xmlParse : String → Except Unit (List CloneRecord))
        (fs : String → Option (List String)) (root : List CloneRecord)
        (e : Entry) (es : List Entry),
        xmlParse xp = .ok root → total_duplication root = some (e :: es) →
        mainB (some xp) none xmlParse fs = .ok [.usageRoot])
    ∧ ∀ (xp : String) (xmlParse : String → Except Unit (List CloneRecord))
        (fs : String → Option (List String)) (root : List CloneRecord),
        xmlParse xp = .ok root → total_duplication root = some [] →
        mainB (some xp) none xmlParse fs = .ok [] := by
  refine ⟨fun argv2 xmlParse fs => rfl, ?_, ?_⟩
  · intro xp xmlParse fs root e es hparse htd
    simp [mainB, hparse, htd, find_filesizes, find_filesizesAux]
  · intro xp xmlParse fs root hparse htd
    simp [mainB, hparse, htd, find_filesizes, find_filesizesAux,
      percentage_duplicated, sort_files, prettyprint_filelist]

/-- Witness for the amended C8. -/
theorem usage_messages_on_missing_args_witness :
    mainB none none (fun _ => .ok []) (fun _ => none) = .ok [.usageXml]
    ∧ mainB (some "a.xml") none
        (fun _ => .ok [⟨"q../../../A", "q../../../B", 4⟩]) (fun _ => none)
      = .ok [.usageRoot]
    ∧ mainB (some "b.xml") none (fun _ => .ok []) (fun _ => none) = .ok [] := by
  have htd : total_duplication [(⟨"q../../../A", "q../../../B", 4⟩ : CloneRecord)]
      = some [⟨4, "A", "B"⟩] := by
    simp [total_duplication, total_duplicationAux, normalizePath, addPair,
      splitMarker, markerL, List.isPrefixOf, String.toList, List.asString]
  exact ⟨usage_messages_on_missing_args.1 none _ _,
    usage_messages_on_missing_args.2.1 "a.xml" _ _ _ ⟨4, "A", "B"⟩ [] rfl htd,
    usage_messages_on_missing_args.2.2 "b.xml" _ _ [] rfl rfl⟩

/-! ### Pipeline B: claim C9 (no zero denominators) -/

/-- Unfolding of the `find_filesizes` loop on a cons with the root present. -/
theorem find_filesizesAux_cons (root : String) (fs : String → Option (List String))
    (acc : List SizedEntry) (fp : Entry) (rest : List Entry) :
    find_filesizesAux (some root) fs acc (fp :: rest)
      = Except.bind (file_len fs (root ++ fp.path1)) fun s1 =>
        Except.bind (file_len fs (root ++ fp.path2)) fun s2 =>
        find_filesizesAux (some root) fs
          (acc ++ [⟨fp.dupe, s1, fp.path1, s2, fp.path2⟩]) rest := rfl

/-- Lemma: `file_len` never returns a value below 1. -/
theorem file_len_pos (fs : String → Option (List String)) (fname : String)
    (n : Int) (h : file_len fs fname = .ok n) : 1 ≤ n := by
  cases hfs : fs fname with
  | none => simp [file_len, hfs] at h
  | some lines =>
    simp only [file_len, hfs] at h
    cases hl : lines.length with
    | zero => rw [hl] at h; simp at h
    | succ k =>
      rw [hl] at h
      obtain rfl := Except.ok.inj h
      omega

/-- Every sized entry produced by the `find_filesizes` loop carries line
counts of at least 1, provided the accumulator already does. -/
theorem find_filesizesAux_sizes (argv2 : Option String)
    (fs : String → Option (List String)) :
    ∀ (fl : List Entry) (acc out : List SizedEntry),
      (∀ e ∈ acc, 1 ≤ e.size1 ∧ 1 ≤ e.size2) →
      find_filesizesAux argv2 fs acc fl = .ok (some out) →
      ∀ e ∈ out, 1 ≤ e.size1 ∧ 1 ≤ e.size2 := by
  intro fl
  induction fl with
  | nil =>
    intro acc out hacc h
    obtain rfl := Option.some.inj (Except.ok.inj h)
    exact hacc
  | cons fp rest ih =>
    intro acc out hacc h
    cases argv2 with
    | none =>
      rw [show find_filesizesAux none fs acc (fp :: rest) = .ok none from rfl] at h
      exact absurd (Except.ok.inj h) (by simp)
    | some root =>
      rw [find_filesizesAux_cons] at h
      cases h1 : file_len fs (root ++ fp.path1) with
      | error e => rw [h1] at h; simp [Except.bind] at h
      | ok s1 =>
        rw [h1] at h
        cases h2 : file_len fs (root ++ fp.path2) with
        | error e => rw [h2] at h; simp [Except.bind] at h
        | ok s2 =>
          rw [h2] at h
          simp only [Except.bind] at h
          refine ih _ out ?_ h
          intro e he
          rcases List.mem_append.mp he with hin | hnew
          · exact hacc e hin
          · obtain rfl := List.mem_singleton.mp hnew
            exact ⟨file_len_pos fs _ s1 h1, file_len_pos fs _ s2 h2⟩

/-- Claim C9: the divisions of `percentage_duplicated` cannot divide by zero
on any list produced by `find_filesizes`: `file_len` never returns 0 — on a
file with `n ≥ 1` lines it returns `n`, and on a zero-line file it raises
instead of returning — so every resolved line count is at least 1 and in
particular nonzero as a rational denominator. -/
theorem find_filesizes_no_zero_denominators
    (argv2 : Option String) (fs : String → Option (List String))
    (fl : List Entry) (out : List SizedEntry)
    (h : find_filesizes argv2 fs fl = .ok (some out)) :
    (∀ e ∈ out, (1 ≤ e.size1 ∧ 1 ≤ e.size2)
      ∧ ((e.size1 : ℚ) ≠ 0 ∧ (e.size2 : ℚ) ≠ 0))
    ∧ (∀ (fname : String) (n : Int), file_len fs fname = .ok n → 1 ≤ n)
    ∧ (∀ (fname : String) (lines : List String), fs fname = some lines →
        lines ≠ [] → file_len fs fname = .ok (lines.length : Int))
    ∧ (∀ fname : String, fs fname = some [] →
        file_len fs fname = .error .unboundLocal) := by
  refine ⟨?_, fun fname n => file_len_pos fs fname n, ?_, ?_⟩
  · intro e he
    have hs := find_filesizesAux_sizes argv2 fs fl [] out (by simp) h e he
    refine ⟨hs, ?_, ?_⟩
    · exact fun hc => by
        have h0 : e.size1 = 0 := by exact_mod_cast hc
        omega
    · exact fun hc => by
        have h0 : e.size2 = 0 := by exact_mod_cast hc
        omega
  · intro fname lines hfs hne
    simp only [file_len, hfs]
    cases hl : lines.length with
    | zero => exact absurd (List.length_eq_zero.mp hl) hne
    | succ k => exact congrArg Except.ok (by omega)
  · intro fname hfs
    simp [file_len, hfs]

/-- Witness for C9. -/
theorem find_filesizes_no_zero_denominators_witness :
    find_filesizes (some "/") (fun _ => some ["l1", "l2"]) [⟨5, "A", "B"⟩]
      = .ok (some [⟨5, 2, "A", 2, "B"⟩])
    ∧ (1 ≤ (SizedEntry.mk 5 2 "A" 2 "B").size1
        ∧ 1 ≤ (SizedEntry.mk 5 2 "A" 2 "B").size2)
    ∧ (((SizedEntry.mk 5 2 "A" 2 "B").size1 : ℚ) ≠ 0
        ∧ ((SizedEntry.mk 5 2 "A" 2 "B").size2 : ℚ) ≠ 0) := by
  have h : find_filesizes (some "/") (fun _ => some ["l1", "l2"]) [⟨5, "A", "B"⟩]
      = .ok (some [⟨5, 2, "A", 2, "B"⟩]) := rfl
  have hc := (find_filesizes_no_zero_denominators _ _ _ _ h).1
    ⟨5, 2, "A", 2, "B"⟩ (by simp)
  exact ⟨h, hc.1, hc.2⟩

/-! ### Pipeline B: claim C5 (percentage calculator) -/

/-- Round-half-to-even lands within 1/2 of its argument. -/
theorem roundHalfEven_near (q : ℚ) :
    q - 1/2 ≤ (roundHalfEven q : ℚ) ∧ (roundHalfEven q : ℚ) ≤ q + 1/2 := by
  have h1 : (⌊q⌋ : ℚ) ≤ q := Int.floor_le q
  have h2 : q < ⌊q⌋ + 1 := Int.lt_floor_add_one q
  unfold roundHalfEven
  by_cases c1 : q - ⌊q⌋ < 1/2
  · rw [if_pos c1]
    constructor <;> linarith
  · rw [if_neg c1]
    by_cases c2 : 1/2 < q - ⌊q⌋
    · rw [if_pos c2]
      constructor <;> push_cast <;> linarith
    · rw [if_neg c2]
      have heq : q - ⌊q⌋ = 1/2 := le_antisymm (not_lt.mp c2) (not_lt.mp c1)
      by_cases c3 : ⌊q⌋ % 2 = 0
      · rw [if_pos c3]
        constructor <;> linarith
      · rw [if_neg c3]
        constructor <;> push_cast <;> linarith

/-- Rounding via `round(x, 2)` stays in the unit interval. -/
theorem round2_mem_unit (q : ℚ) (h0 : 0 ≤ q) (h1 : q ≤ 1) :
    0 ≤ round2 q ∧ round2 q ≤ 1 := by
  obtain ⟨ha, hb⟩ := roundHalfEven_near (q * 100)
  have hlow : (-1 : ℚ) < (roundHalfEven (q * 100) : ℚ) := by linarith
  have hhigh : (roundHalfEven (q * 100) : ℚ) < 101 := by linarith
  have hlow2 : (0 : ℤ) ≤ roundHalfEven (q * 100) := by
    have : (-1 : ℤ) < roundHalfEven (q * 100) := by exact_mod_cast hlow
    omega
  have hhigh2 : roundHalfEven (q * 100) ≤ 100 := by
    have : roundHalfEven (q * 100) < (101 : ℤ) := by exact_mod_cast hhigh
    omega
  unfold round2
  constructor
  · exact div_nonneg (by exact_mod_cast hlow2) (by norm_num)
  · rw [div_le_one (by norm_num : (0:ℚ) < 100)]
    exact_mod_cast hhigh2

/-- An append-only fold is a map. -/
theorem foldl_append_singleton {α β : Type} (f : α → β) :
    ∀ (l : List α) (init : List β),
      l.foldl (fun acc a => acc ++ [f a]) init = init ++ l.map f := by
  intro l
  induction l with
  | nil => intro init; simp
  | cons a rest ih => intro init; simp [ih]

/-- Claim C5: `percentage_duplicated` computes, for every entry and
independently per file, `percent_i = round(dupe / size_i, 2)` (it is the
elementwise map of that formula over its input, so identical inputs give
identical results), and whenever `0 ≤ dupe ≤ size_i` with `size_i`
positive, `percent_i` lies in `[0, 1]`. -/
theorem percentage_duplicated_formula_and_bounds (sa : List SizedEntry) :
    percentage_duplicated sa = sa.map scoreOf
    ∧ ∀ arr ∈ sa, 0 ≤ arr.dupe →
        (0 < arr.size1 → arr.dupe ≤ arr.size1 →
          0 ≤ (scoreOf arr).percent1 ∧ (scoreOf arr).percent1 ≤ 1)
        ∧ (0 < arr.size2 → arr.dupe ≤ arr.size2 →
          0 ≤ (scoreOf arr).percent2 ∧ (scoreOf arr).percent2 ≤ 1) := by
  constructor
  · rw [show percentage_duplicated sa
        = sa.foldl (fun acc arr => acc ++ [scoreOf arr]) [] from rfl]
    rw [foldl_append_singleton]
    rfl
  · intro arr hmem hd
    constructor
    · intro hs hds
      have hpos : (0 : ℚ) < (arr.size1 : ℚ) := by exact_mod_cast hs
      have hq0 : (0 : ℚ) ≤ (arr.dupe : ℚ) / (arr.size1 : ℚ) :=
        div_nonneg (by exact_mod_cast hd) (le_of_lt hpos)
      have hq1 : (arr.dupe : ℚ) / (arr.size1 : ℚ) ≤ 1 :=
        (div_le_one hpos).mpr (by exact_mod_cast hds)
      exact round2_mem_unit _ hq0 hq1
    · intro hs hds
      have hpos : (0 : ℚ) < (arr.size2 : ℚ) := by exact_mod_cast hs
      have hq0 : (0 : ℚ) ≤ (arr.dupe : ℚ) / (arr.size2 : ℚ) :=
        div_nonneg (by exact_mod_cast hd) (le_of_lt hpos)
      have hq1 : (arr.dupe : ℚ) / (arr.size2 : ℚ) ≤ 1 :=
        (div_le_one hpos).mpr (by exact_mod_cast hds)
      exact round2_mem_unit _ hq0 hq1

/-- Witness for C5, on the spec's own example: dupe 80, sizes 200 and 400
give percentages 0.40 and 0.20, both in the unit interval. -/
theorem percentage_duplicated_formula_and_bounds_witness :
    percentage_duplicated [⟨80, 200, "A", 400, "B"⟩]
      = [SizedEntry.mk 80 200 "A" 400 "B"].map scoreOf
    ∧ (0 ≤ (scoreOf ⟨80, 200, "A", 400, "B"⟩).percent1
        ∧ (scoreOf ⟨80, 200, "A", 400, "B"⟩).percent1 ≤ 1)
    ∧ (0 ≤ (scoreOf ⟨80, 200, "A", 400, "B"⟩).percent2
        ∧ (scoreOf ⟨80, 200, "A", 400, "B"⟩).percent2 ≤ 1)
    ∧ (scoreOf ⟨80, 200, "A", 400, "B"⟩).percent1 = 2/5
    ∧ (scoreOf ⟨80, 200, "A", 400, "B"⟩).percent2 = 1/5 := by
  have h := percentage_duplicated_formula_and_bounds [⟨80, 200, "A", 400, "B"⟩]
  have h2 := h.2 ⟨80, 200, "A", 400, "B"⟩ (by simp) (by norm_num)
  refine ⟨h.1, h2.1 (by norm_num) (by norm_num), h2.2 (by norm_num) (by norm_num), ?_, ?_⟩
  · show round2 (((80 : Int) : ℚ) / ((200 : Int) : ℚ)) = 2/5
    norm_num [round2, roundHalfEven]
  · show round2 (((80 : Int) : ℚ) / ((400 : Int) : ℚ)) = 1/5
    norm_num [round2, roundHalfEven]

/-! ### Pipeline B: claim C4 (sorter) -/

/-- Claim C4: `sort_files` returns a permutation of its input that is
non-decreasing in `percent_1`, and it is stable: for every key value, the
sublist of entries with that exact `percent_1` is preserved verbatim (hence
ties keep their aggregation-order relative positions). -/
theorem sort_files_sorted_stable_perm (l : List ScoredEntry) :
    (sort_files l).Perm l
    ∧ (sort_files l).Pairwise (fun a b => a.percent1 ≤ b.percent1)
    ∧ ∀ c : ℚ, (sort_files l).filter (fun e => decide (e.percent1 = c))
        = l.filter (fun e => decide (e.percent1 = c)) := by
  have htrans : ∀ a b c : ScoredEntry,
      decide (a.percent1 ≤ b.percent1) → decide (b.percent1 ≤ c.percent1) →
      decide (a.percent1 ≤ c.percent1) := by
    intro a b c hab hbc
    simp only [decide_eq_true_eq] at *
    exact le_trans hab hbc
  have htotal : ∀ a b : ScoredEntry,
      decide (a.percent1 ≤ b.percent1) || decide (b.percent1 ≤ a.percent1) := by
    intro a b
    by_cases hab : a.percent1 ≤ b.percent1
    · simp [hab]
    · simp [le_of_not_le hab]
  refine ⟨List.mergeSort_perm l _, ?_, ?_⟩
  · have hs := List.sorted_mergeSort htrans htotal l
    exact hs.imp fun h => by simpa using h
  · intro c
    set p : ScoredEntry → Bool := fun e => decide (e.percent1 = c) with hp
    have hall : ∀ e ∈ l.filter p, p e := fun e he => List.of_mem_filter he
    have hpair : (l.filter p).Pairwise
        (fun a b => decide (a.percent1 ≤ b.percent1) = true) := by
      refine List.pairwise_of_forall_mem_list ?_
      intro a ha b hb
      have ha2 : a.percent1 = c := by simpa [hp] using List.of_mem_filter ha
      have hb2 : b.percent1 = c := by simpa [hp] using List.of_mem_filter hb
      simp [ha2, hb2]
    have h1 : List.Sublist (l.filter p)
        (List.mergeSort l (fun a b => decide (a.percent1 ≤ b.percent1))) :=
      List.sublist_mergeSort htrans htotal hpair (List.filter_sublist l)
    have h2 : List.Sublist (l.filter p)
        ((List.mergeSort l (fun a b => decide (a.percent1 ≤ b.percent1))).filter p) := by
      have := List.Sublist.filter p h1
      rwa [List.filter_eq_self.mpr hall] at this
    have h3 : ((List.mergeSort l
        (fun a b => decide (a.percent1 ≤ b.percent1))).filter p).length
        = (l.filter p).length :=
      ((List.mergeSort_perm l _).filter p).length_eq
    exact (List.Sublist.eq_of_length h2 h3.symm).symm

/-! ### Pipeline A: claim C3 (page builder) -/

/-- When the row does not outrun the header, the cell loop succeeds and
makes exactly one section write per non-empty cell (at every position,
including cell 0). -/
theorem processCells_writes (header_array : List String) (rowLen : Nat) :
    ∀ (rest : List String) (cell_num : Nat) (cats : List String),
      cell_num + rest.length ≤ header_array.length →
      ∃ calls catsOut,
        processCells header_array rowLen cell_num rest cats = some (calls, catsOut)
        ∧ calls.length = rest.countP fun cell => decide (cell ≠ "") := by
  intro rest
  induction rest with
  | nil =>
    intro cell_num cats _
    exact ⟨[], cats, rfl, by simp⟩
  | cons cell rest2 ih =>
    intro cell_num cats hlen
    have hlt : cell_num < header_array.length := by
      simp only [List.length_cons] at hlen
      omega
    obtain ⟨heading, hget⟩ : ∃ h, header_array[cell_num]? = some h :=
      ⟨header_array[cell_num], List.getElem?_eq_getElem hlt⟩
    by_cases hc : cell = ""
    · obtain ⟨calls, catsOut, hrec, hcnt⟩ := ih (cell_num + 1) cats (by
        simp only [List.length_cons] at hlen
        omega)
      refine ⟨calls, catsOut, ?_, ?_⟩
      · rw [show processCells header_array rowLen cell_num (cell :: rest2) cats
              = processCells header_array rowLen (cell_num + 1) rest2 cats from by
            simp [processCells, hc]]
        exact hrec
      · rw [hcnt, List.countP_cons]
        simp [hc]
    · obtain ⟨calls, catsOut, hrec, hcnt⟩ := ih (cell_num + 1)
        (if cell_num = rowLen - 1 then (if cell ∈ cats then cats else cats ++ [cell])
         else cats)
        (by simp only [List.length_cons] at hlen
            omega)
      refine ⟨⟨if cell_num = rowLen - 1 then "[[Category:" ++ cell ++ "]]" else cell,
              cell_num, heading⟩ :: calls, catsOut, ?_, ?_⟩
      · rw [show processCells header_array rowLen cell_num (cell :: rest2) cats
              = some (⟨if cell_num = rowLen - 1 then "[[Category:" ++ cell ++ "]]"
                       else cell, cell_num, heading⟩ :: calls, catsOut) from by
            simp [processCells, hc, hget, hrec]]
      · rw [List.countP_cons]
        simp [hc, hcnt]

/-- Counterexample to claim C3 as stated: on the spec's own example the code
also writes the FIRST cell as section 0 (text "Widget", heading "Name"), so
the writes are not exactly the two claimed sections 1 and 2. -/
theorem page_builder_first_cell_cex :
    processCells ["Name", "Detail", "Tag"] 3 0 ["Widget", "desc", "cat1"] []
      = some ([⟨"Widget", 0, "Name"⟩, ⟨"desc", 1, "Detail"⟩,
               ⟨"[[Category:cat1]]", 2, "Tag"⟩], ["cat1"])
    ∧ (some ([⟨"Widget", 0, "Name"⟩, ⟨"desc", 1, "Detail"⟩,
              ⟨"[[Category:cat1]]", 2, "Tag"⟩], ["cat1"])
        ≠ (some ([⟨"desc", 1, "Detail"⟩, ⟨"[[Category:cat1]]", 2, "Tag"⟩], ["cat1"])
            : Option (List SaveCall × List String))) := by
  exact ⟨by decide, by decide⟩

/-- Claim C3 (amended): the page builder derives the title
`Proposal_<row_index>: <first_cell>` and emits one section write per
non-empty cell INCLUDING the first (which is written as section 0 under the
first header); on the example row the writes are sections 0, 1, 2 with
texts "Widget", "desc", "[[Category:cat1]]" under headings "Name",
"Detail", "Tag", and "cat1" is added to the category set. -/
theorem page_builder_title_and_writes :
    (∀ (row_num : Nat) (c : String) (rest : List String),
        pageTitle row_num (c :: rest)
          = some ("Proposal_" ++ toString row_num ++ ": " ++ c))
    ∧ (∀ (header_array : List String) (rowLen : Nat) (rest : List String)
        (cell_num : Nat) (cats : List String),
        cell_num + rest.length ≤ header_array.length →
        ∃ calls catsOut,
          processCells header_array rowLen cell_num rest cats = some (calls, catsOut)
          ∧ calls.length = rest.countP fun cell => decide (cell ≠ ""))
    ∧ pageTitle 3 ["Widget", "desc", "cat1"] = some "Proposal_3: Widget"
    ∧ processCells ["Name", "Detail", "Tag"] 3 0 ["Widget", "desc", "cat1"] []
        = some ([⟨"Widget", 0, "Name"⟩, ⟨"desc", 1, "Detail"⟩,
                 ⟨"[[Category:cat1]]", 2, "Tag"⟩], ["cat1"]) := by
  refine ⟨fun row_num c rest => rfl,
    fun header_array rowLen => processCells_writes header_array rowLen,
    by decide, by decide⟩

/-- Witness for the amended C3. -/
theorem page_builder_title_and_writes_witness :
    (0 + (["x"] : List String).length ≤ (["H"] : List String).length)
    ∧ ∃ calls catsOut,
        processCells ["H"] 1 0 ["x"] [] = some (calls, catsOut)
        ∧ calls.length = (["x"] : List String).countP fun cell => decide (cell ≠ "") :=
  ⟨by decide, page_builder_title_and_writes.2.1 ["H"] 1 ["x"] 0 [] (by decide)⟩
